import Mathlib

/-
Verification of the beans market-data pipeline.

Shallow embedding of the Rust sources:
  src/main.rs                          (classifier, array unwrap, resequencing)
  src/orderbook.rs                     (decimal codec, order book model)
  src/polymarket/websocket.rs          (same resequencing stage, same unwrap)
  src/polymarket/messages/price_change.rs (same decimal codec)

Machine integers (u64) are modelled as Nat with explicit reduction mod 2^64
where overflow matters; release-profile wrapping semantics are used for
arithmetic overflow, and the one operation that panics in every profile
(division by zero) is modelled by Option.none.  Byte slices are List Nat,
strings are List Char.
-/

namespace Beans

/-- The u64 modulus. -/
def U64 : ℕ := 2 ^ 64

/-- Models the Rust u64 FromStr parse used by parse_decimal_to_int: an
optional leading plus sign, then one or more ASCII digits, value below 2^64.
Returns none on the empty string, a non-digit character, or part overflow
(all of which Rust reports as a ParseIntError). -/
def parseU64 (cs : List Char) : Option ℕ :=
  let ds := match cs with
    | '+' :: rest => rest
    | _ => cs
  if ds = [] then none
  else if ds.all (fun c => c.isDigit) then
    let v := ds.foldl (fun acc c => acc * 10 + (c.toNat - 48)) 0
    if v < U64 then some v else none
  else none

/-- Models str::find on the first dot: splits the string at the first
occurrence of the dot character, returning (integer part, fractional part);
none when no dot is present. -/
def splitFirstDot : List Char → Option (List Char × List Char)
  | [] => none
  | c :: cs =>
    if c = '.' then some ([], cs)
    else (splitFirstDot cs).map (fun r => (c :: r.1, r.2))

/-- Embeds parse_decimal_to_int from src/orderbook.rs (identical copy in
src/polymarket/messages/price_change.rs).  Multiplication and addition wrap
mod 2^64 (release profile); the division by 10^(frac_len - decimals) panics
when that power wraps to zero, modelled as none.  The error strings are the
exact ones in the source. -/
def parse_decimal_to_int (s : List Char) (decimals : ℕ) : Option (Except String ℕ) :=
  let multiplier := 10 ^ decimals % U64
  match splitFirstDot s with
  | some (intStr, fracStr) =>
    match parseU64 intStr with
    | none => some (Except.error ("invalid integer part"))
    | some int_part =>
      match parseU64 fracStr with
      | none => some (Except.error ("invalid fractional part"))
      | some frac_part =>
        let frac_len := fracStr.length
        if frac_len < decimals then
          let scaled := frac_part * (10 ^ (decimals - frac_len) % U64) % U64
          some (Except.ok ((int_part * multiplier % U64 + scaled) % U64))
        else if frac_len > decimals then
          let d := 10 ^ (frac_len - decimals) % U64
          if d = 0 then none
          else some (Except.ok ((int_part * multiplier % U64 + frac_part / d) % U64))
        else
          some (Except.ok ((int_part * multiplier % U64 + frac_part) % U64))
  | none =>
    match parseU64 s with
    | none => some (Except.error ("invalid integer"))
    | some int_part => some (Except.ok (int_part * multiplier % U64))

/-- The byte pattern b"book" searched for by is_initial_book in src/main.rs. -/
def bookPat : List ℕ := [98, 111, 111, 107]

/-- True when the first list occurs at the head of the second list. -/
def leadMatch : List ℕ → List ℕ → Bool
  | [], _ => true
  | _ :: _, [] => false
  | a :: as, b :: bs => a == b && leadMatch as bs

/-- Models slice::windows(pat.len()).any(|w| w == pat): true when pat occurs
as a contiguous run inside the list. -/
def windowsAny (pat : List ℕ) : List ℕ → Bool
  | [] => false
  | b :: rest => leadMatch pat (b :: rest) || windowsAny pat rest

/-- Embeds is_initial_book from src/main.rs: first byte is the open bracket
(byte 91) and the payload contains the bytes of "book". -/
def is_initial_book (raw : List ℕ) : Bool :=
  raw.head? == some 91 && windowsAny bookPat raw

/-- Spec-side predicate, for comparison with is_initial_book: the first
byte remaining after skipping ASCII whitespace (space, tab, LF, CR). -/
def firstNonWhitespace (raw : List ℕ) : Option ℕ :=
  (raw.dropWhile (fun b => b == 32 || b == 9 || b == 10 || b == 13)).head?

/-- Models Iterator::rposition: index of the last element satisfying p. -/
def rposition (p : ℕ → Bool) : List ℕ → Option ℕ
  | [] => none
  | b :: bs =>
    match rposition p bs with
    | some i => some (i + 1)
    | none => if p b then some 0 else none

/-- The slice bounds (start, end) computed by strip_array_wrapper in
src/main.rs (identical copy in src/polymarket/websocket.rs): start is the
constant 1, end is the position of the last close-bracket byte (93), or the
input length when there is none. -/
def stripBounds (raw : List ℕ) : ℕ × ℕ :=
  (1, (rposition (fun b => b == 93) raw).getD raw.length)

/-- Embeds strip_array_wrapper: the slice raw[start..end] for the bounds
above.  Rust panics when the bounds are out of range (start > end or
end > len), modelled as none. -/
def strip_array_wrapper (raw : List ℕ) : Option (List ℕ) :=
  let se := stripBounds raw
  if se.1 ≤ se.2 ∧ se.2 ≤ raw.length then some ((raw.take se.2).drop se.1)
  else none

/-- Embeds the LevelEntry struct of src/orderbook.rs, after the serde string
fields have been decoded by parse_decimal_to_int (price with 2 decimals,
size with 1 decimal). -/
structure LevelEntry where
  price : ℕ
  size : ℕ
deriving DecidableEq

/-- Embeds IncomingOrderBookMessage of src/orderbook.rs: the decoded form of
one book snapshot payload accepted by serde_json inside Orderbook::from_bytes.
Quantifying over all values of this structure covers every raw payload that
from_bytes accepts. -/
structure IncomingOrderBookMessage where
  market : String
  asset_id : String
  timestamp : ℕ
  bids : List LevelEntry
  asks : List LevelEntry
  hash : String

/-- Embeds the Orderbook struct.  The Rust BTreeMap sides are modelled as
association lists with unique keys; the Rust bids map is keyed by
Reverse(price), which only affects iteration order, so here bids also store
the plain price and the best-bid query takes the maximum key. -/
structure Orderbook where
  market : String
  asset_id : String
  timestamp : ℕ
  asks : List (ℕ × ℕ)
  bids : List (ℕ × ℕ)

/-- Models map insertion with BTreeMap semantics: an existing binding of the
same key is replaced. -/
def mapInsert {α : Type} (k : ℕ) (v : α) (m : List (ℕ × α)) : List (ℕ × α) :=
  (k, v) :: m.filter (fun p => p.1 ≠ k)

/-- Models collecting an iterator of levels into a BTreeMap. -/
def collectLevels (entries : List LevelEntry) : List (ℕ × ℕ) :=
  entries.foldl (fun m e => mapInsert e.price e.size m) []

/-- The entry of the map with the least key, or none when empty: models
BTreeMap::first_key_value on the ask side. -/
def minEntry? : List (ℕ × ℕ) → Option (ℕ × ℕ)
  | [] => none
  | e :: es =>
    match minEntry? es with
    | none => some e
    | some f => some (if e.1 ≤ f.1 then e else f)

/-- The entry of the map with the greatest key, or none when empty: models
BTreeMap::first_key_value on the Reverse-keyed bid side. -/
def maxEntry? : List (ℕ × ℕ) → Option (ℕ × ℕ)
  | [] => none
  | e :: es =>
    match maxEntry? es with
    | none => some e
    | some f => some (if f.1 ≤ e.1 then e else f)

/-- Embeds Orderbook::from_bytes after serde decoding: both sides keep only
the entries with size > 0, then collect into maps. -/
def Orderbook.from_bytes (msg : IncomingOrderBookMessage) : Orderbook where
  market := msg.market
  asset_id := msg.asset_id
  timestamp := msg.timestamp
  asks := collectLevels (msg.asks.filter (fun e => 0 < e.size))
  bids := collectLevels (msg.bids.filter (fun e => 0 < e.size))

/-- Embeds Orderbook::best_bid: the maximum-price bid level. -/
def Orderbook.best_bid (ob : Orderbook) : Option (ℕ × ℕ) :=
  maxEntry? ob.bids

/-- Embeds Orderbook::best_ask: the minimum-price ask level. -/
def Orderbook.best_ask (ob : Orderbook) : Option (ℕ × ℕ) :=
  minEntry? ob.asks

/-- Embeds Orderbook::mid_price: (bid + ask) / 2 in u64 arithmetic, where
the addition wraps mod 2^64 in a release build. -/
def Orderbook.mid_price (ob : Orderbook) : Option ℕ :=
  match ob.best_bid, ob.best_ask with
  | some (bid, _), some (ask, _) => some ((bid + ask) % U64 / 2)
  | _, _ => none

/-- Embeds Orderbook::spread: ask.saturating_sub(bid), which is exactly
truncated subtraction on Nat. -/
def Orderbook.spread (ob : Orderbook) : Option ℕ :=
  match ob.best_bid, ob.best_ask with
  | some (bid, _), some (ask, _) => some (ask - bid)
  | _, _ => none

/-- Embeds the ParsedMessage struct of src/main.rs, generic in the payload
so the ordering theorems do not depend on the book contents. -/
structure ParsedMessage (α : Type) where
  seq_no : ℕ
  payload : α

/-- State of the reordering stage orderbook_handling in src/main.rs:
the BTreeMap buffer (association list with unique keys), next_seq, and the
list of emitted entries in emission order (the printed updates). -/
structure RState (α : Type) where
  buffer : List (ℕ × α)
  next_seq : ℕ
  emitted : List (ℕ × α)

/-- Models BTreeMap::remove: detach the binding of the key, if present. -/
def removeKey {α : Type} (k : ℕ) : List (ℕ × α) → Option (α × List (ℕ × α))
  | [] => none
  | p :: ps =>
    if p.1 = k then some (p.2, ps)
    else (removeKey k ps).map (fun r => (r.1, p :: r.2))

/-- The inner drain loop of orderbook_handling: while next_seq is present in
the buffer, remove it, emit it, and advance next_seq.  Each iteration
removes one buffer entry, so the buffer size bounds the iteration count;
the fuel argument is instantiated with that size. -/
def drainFuel {α : Type} : ℕ → List (ℕ × α) → ℕ → List (ℕ × α) × ℕ × List (ℕ × α)
  | 0, m, next => (m, next, [])
  | fuel + 1, m, next =>
    match removeKey next m with
    | some (v, m2) =>
      let r := drainFuel fuel m2 (next + 1)
      (r.1, r.2.1, (next, v) :: r.2.2)
    | none => (m, next, [])

/-- The drain loop at its natural fuel. -/
def drain {α : Type} (m : List (ℕ × α)) (next : ℕ) :
    List (ℕ × α) × ℕ × List (ℕ × α) :=
  drainFuel m.length m next

/-- One loop body of orderbook_handling: insert the received message into
the buffer, then drain every now-contiguous entry. -/
def step {α : Type} (s : RState α) (msg : ParsedMessage α) : RState α :=
  let m := mapInsert msg.seq_no msg.payload s.buffer
  let r := drain m s.next_seq
  ⟨r.1, r.2.1, s.emitted ++ r.2.2⟩

/-- Embeds orderbook_handling from src/main.rs run on a finite delivery
sequence: buffer starts empty, next_seq starts at 0, and each received
ParsedMessage is processed by the loop body in delivery order. -/
def orderbook_handling {α : Type} (msgs : List (ParsedMessage α)) : RState α :=
  msgs.foldl step ⟨[], 0, []⟩

/-- Models the worker completions of src/main.rs: each frame carries its
assigned sequence number and the parse outcome; on success the worker sends
ParsedMessage over the channel, on failure it sends nothing (the seq slot is
silently lost). -/
def deliveredOf {α : Type} (frames : List (ℕ × Option α)) : List (ParsedMessage α) :=
  frames.filterMap (fun f => f.2.map (fun v => ⟨f.1, v⟩))

/-- Invariant of the reordering stage relative to the list S of sequence
numbers delivered so far: buffer keys are distinct, the emitted sequence
numbers are exactly 0, 1, ..., next_seq - 1 in order, the buffer holds
exactly the delivered numbers not yet emitted (all of them at least
next_seq), every emitted number was delivered, and next_seq itself has not
been delivered yet. -/
def Inv {α : Type} (S : List ℕ) (s : RState α) : Prop :=
  (s.buffer.map Prod.fst).Nodup
  ∧ s.emitted.map Prod.fst = List.range s.next_seq
  ∧ (∀ k, k ∈ s.buffer.map Prod.fst ↔ (k ∈ S ∧ s.next_seq ≤ k))
  ∧ (∀ k, k < s.next_seq → k ∈ S)
  ∧ s.next_seq ∉ S

/-- Delivery order for the permutation witness: completions 2, 0, 3, 1. -/
def msgsC1 : List (ParsedMessage ℕ) := [⟨2, 20⟩, ⟨0, 10⟩, ⟨3, 30⟩, ⟨1, 11⟩]

/-- Worker completions where sequence number 2 fails to parse (sends
nothing) while 0, 1 and 3 succeed, with 3 completing first. -/
def framesC2 : List (ℕ × Option ℕ) := [(3, some 30), (0, some 10), (1, some 11), (2, none)]

/-- A decoded snapshot whose ask list carries a nonzero entry and then a
zero-size entry at the same price 33. -/
def msgC6 : IncomingOrderBookMessage := ⟨"m", "a", 0, [], [⟨33, 5⟩, ⟨33, 0⟩], "h"⟩

/-- A book whose best bid and best ask both sit at the largest u64 price. -/
def obC8 : Orderbook := ⟨"m", "a", 0, [(2 ^ 64 - 1, 1)], [(2 ^ 64 - 1, 1)]⟩

/-- The snapshot of the spec example: bids (33,10),(32,5), asks (34,7). -/
def msgC9 : IncomingOrderBookMessage := ⟨"m", "a", 7, [⟨33, 10⟩, ⟨32, 5⟩], [⟨34, 7⟩], "h"⟩

/-- The empty snapshot. -/
def msgC9e : IncomingOrderBookMessage := ⟨"m", "a", 7, [], [], "h"⟩

/- Helper lemmas about rposition. -/

theorem rposition_eq_none (p : ℕ → Bool) (l : List ℕ) :
    rposition p l = none ↔ ∀ b ∈ l, p b = false := by
  induction l with
  | nil => simp [rposition]
  | cons b bs ih =>
    simp only [rposition]
    rcases h : rposition p bs with _ | i
    · change (if p b = true then some 0 else none) = none ↔ _
      by_cases hpb : p b = true
      · rw [if_pos hpb]
        constructor
        · intro hc; exact absurd hc (by simp)
        · intro hall
          have hb2 := hall b (List.mem_cons_self b bs)
          rw [hpb] at hb2
          exact Bool.noConfusion hb2
      · rw [if_neg hpb]
        constructor
        · intro _ c hc
          rcases List.mem_cons.mp hc with rfl | hc2
          · simpa using hpb
          · exact ih.mp h c hc2
        · intro _; rfl
    · change some (i + 1) = none ↔ _
      constructor
      · intro hb; exact Option.noConfusion hb
      · intro hall
        have hn : rposition p bs = none :=
          ih.mpr (fun c hc => hall c (List.mem_cons_of_mem b hc))
        rw [hn] at h
        exact Option.noConfusion h

theorem rposition_lt_length (p : ℕ → Bool) (l : List ℕ) (i : ℕ)
    (h : rposition p l = some i) : i < l.length := by
  induction l generalizing i with
  | nil => exact Option.noConfusion h
  | cons b bs ih =>
    simp only [rposition] at h
    rcases h2 : rposition p bs with _ | j
    · rw [h2] at h
      change (if p b = true then some 0 else none) = some i at h
      by_cases hpb : p b = true
      · rw [if_pos hpb] at h
        injection h with h
        simp only [List.length_cons]
        omega
      · rw [if_neg hpb] at h
        exact Option.noConfusion h
    · rw [h2] at h
      change some (j + 1) = some i at h
      injection h with h
      have := ih j h2
      simp only [List.length_cons]
      omega

theorem rposition_head_pos (p : ℕ → Bool) (b : ℕ) (bs : List ℕ) (i : ℕ)
    (hpb : p b = false) (h : rposition p (b :: bs) = some i) : 1 ≤ i := by
  simp only [rposition] at h
  rcases h2 : rposition p bs with _ | j
  · rw [h2] at h
    change (if p b = true then some 0 else none) = some i at h
    rw [hpb] at h
    simp at h
  · rw [h2] at h
    change some (j + 1) = some i at h
    injection h with h
    omega

/- C3: behavior of strip_array_wrapper when no close bracket is present. -/

/-- Claim C3 as stated is false: on the input "abc", which contains no close
bracket, strip_array_wrapper does not return the input unchanged — it drops
the leading byte and returns "bc". -/
theorem c3_counterexample :
    ((93 : ℕ) ∉ [97, 98, 99])
    ∧ strip_array_wrapper [97, 98, 99] ≠ some [97, 98, 99]
    ∧ strip_array_wrapper [97, 98, 99] = some [98, 99] := by decide

/-- Amended claim C3: for every nonempty input containing no close-bracket
byte, strip_array_wrapper returns the input with its first byte removed
(the degraded behavior keeps the tail, not the whole slice). -/
theorem c3_amended (raw : List ℕ) (hne : raw ≠ []) (h : ∀ b ∈ raw, b ≠ 93) :
    strip_array_wrapper raw = some (raw.drop 1) := by
  have hr : rposition (fun b => b == 93) raw = none := by
    rw [rposition_eq_none]
    intro b hb
    simpa using h b hb
  have hlen : 1 ≤ raw.length := List.length_pos.mpr hne
  simp only [strip_array_wrapper, stripBounds, hr, Option.getD_none]
  rw [if_pos ⟨hlen, le_refl _⟩]
  rw [List.take_length]

/-- Witness for the amended claim C3 at the input "abc". -/
theorem c3_amended_witness :
    (([97, 98, 99] : List ℕ) ≠ [] ∧ ∀ b ∈ ([97, 98, 99] : List ℕ), b ≠ 93)
    ∧ strip_array_wrapper [97, 98, 99] = some [98, 99] :=
  ⟨⟨by decide, by decide⟩, c3_amended [97, 98, 99] (by decide) (by decide)⟩

/- C10: slice bounds of strip_array_wrapper. -/

/-- Claim C10 as stated is false: on the empty slice the computed bounds are
start = 1 and end = 0, which violate start ≤ end, and the slice operation
panics (modelled as none). -/
theorem c10_counterexample :
    ¬ ((stripBounds []).1 ≤ (stripBounds []).2) ∧ strip_array_wrapper [] = none := by decide

/-- Amended claim C10: for every input whose first byte is the open bracket
(the precondition stated by the doc comment of strip_array_wrapper), the
computed bounds satisfy start = 1 ≤ end ≤ length and the slice is defined;
on the empty slice (or when the last close bracket is the first byte) the
bounds are out of range and the slice panics. -/
theorem c10_amended (raw : List ℕ) (h : raw.head? = some 91) :
    1 ≤ (stripBounds raw).2 ∧ (stripBounds raw).2 ≤ raw.length
    ∧ (strip_array_wrapper raw).isSome := by
  match raw, h with
  | b :: bs, h =>
    have hb : b = 91 := by simpa using h
    subst hb
    have hbounds : 1 ≤ (stripBounds (91 :: bs)).2 ∧ (stripBounds (91 :: bs)).2 ≤ (91 :: bs).length := by
      simp only [stripBounds]
      rcases hr : rposition (fun b => b == 93) (91 :: bs) with _ | i
      · simp
      · have h1 : 1 ≤ i := rposition_head_pos _ _ _ _ (by decide) hr
        have h2 : i < (91 :: bs).length := rposition_lt_length _ _ _ hr
        simp only [Option.getD_some]
        omega
    refine ⟨hbounds.1, hbounds.2, ?_⟩
    simp only [strip_array_wrapper]
    rw [if_pos ⟨hbounds.1, hbounds.2⟩]
    simp

/-- Witness for the amended claim C10 at the input "[a]". -/
theorem c10_amended_witness :
    (([91, 97, 93] : List ℕ).head? = some 91)
    ∧ (1 ≤ (stripBounds [91, 97, 93]).2 ∧ (stripBounds [91, 97, 93]).2 ≤ ([91, 97, 93] : List ℕ).length
        ∧ (strip_array_wrapper [91, 97, 93]).isSome) :=
  ⟨by decide, c10_amended [91, 97, 93] (by decide)⟩

/- C4: truncation behavior of the decimal codec. -/

/-- Claim C4 as stated is false: parse_decimal_to_int on "1.2345" with 2
decimals does not return 120. -/
theorem c4_counterexample :
    parse_decimal_to_int ("1.2345".toList) 2 ≠ some (Except.ok 120) := by
  intro h
  rw [show parse_decimal_to_int ("1.2345".toList) 2 = some (Except.ok 123) from rfl] at h
  simp at h

/-- Amended claim C4: parse_decimal_to_int on "1.2345" with 2 decimals
returns 123 — the fractional digits beyond the configured precision are
dropped (2345 becomes 23), not rounded, and the result is
1 * 100 + 23 = 123. -/
theorem c4_amended : parse_decimal_to_int ("1.2345".toList) 2 = some (Except.ok 123) := rfl

/- C5: error conditions of the decimal codec. -/

/-- Claim C5 as stated is false: the input "+1" has an integer part
containing the plus character, which is not an ASCII digit, yet the code
accepts it (Rust u64 parsing allows one leading plus sign) and returns 100,
rather than failing with InvalidNumber. -/
theorem c5_counterexample :
    (¬ Char.isDigit '+') ∧ parse_decimal_to_int ['+', '1'] 2 = some (Except.ok 100) :=
  ⟨by decide, rfl⟩

/-- Amended claim C5: parse_decimal_to_int fails exactly when u64 string
parsing of the integer part — or of the fractional part, when a dot is
present — fails, where a part parses iff it is nonempty after an optional
leading plus sign, consists only of ASCII digits, and its value is below
2^64 (part overflow is reported with the same invalid-part error).  The
only error values are the three invalid-part strings: no Overflow error
exists, combined-value overflow instead wraps (release) or panics (debug). -/
theorem c5_amended (s : List Char) (d : ℕ) :
    ((∃ e, parse_decimal_to_int s d = some (Except.error e)) ↔
      (match splitFirstDot s with
       | some pr => parseU64 pr.1 = none ∨ parseU64 pr.2 = none
       | none => parseU64 s = none))
    ∧ (∀ e, parse_decimal_to_int s d = some (Except.error e) →
        e = "invalid integer part" ∨ e = "invalid fractional part" ∨ e = "invalid integer") := by
  rcases hsp : splitFirstDot s with _ | ⟨i, f⟩
  · simp only [parse_decimal_to_int, hsp]
    rcases hu : parseU64 s with _ | v
    · simp
    · simp
  · simp only [parse_decimal_to_int, hsp]
    rcases hi : parseU64 i with _ | ip
    · simp
    · rcases hf : parseU64 f with _ | fp
      · simp
      · constructor
        · constructor
          · intro he
            obtain ⟨e, he⟩ := he
            split_ifs at he <;> simp_all
          · intro hc
            rcases hc with hc | hc <;> exact Option.noConfusion hc
        · intro e he
          split_ifs at he <;> simp_all

/-- Witness for the amended claim C5 at the input ".", whose empty integer
part fails u64 parsing. -/
theorem c5_amended_witness :
    (parse_decimal_to_int ['.'] 2 = some (Except.error ("invalid integer part")))
    ∧ ("invalid integer part" = "invalid integer part" ∨ "invalid integer part" = "invalid fractional part"
        ∨ "invalid integer part" = "invalid integer") :=
  ⟨rfl, (c5_amended ['.'] 2).2 ("invalid integer part") rfl⟩

/- C7: the array-wrapped payload predicate. -/

/-- Claim C7 as stated is false: the payload " [book]" has the open bracket
as its first non-whitespace byte, yet is_initial_book is false, because the
code checks the very first byte without skipping whitespace. -/
theorem c7_counterexample :
    firstNonWhitespace [32, 91, 98, 111, 111, 107, 93] = some 91
    ∧ is_initial_book [32, 91, 98, 111, 111, 107, 93] = false := by decide

/-- Amended claim C7: is_initial_book holds exactly when the very first
byte (no whitespace skipping) is the open bracket and the payload contains
the bytes of "book"; consequently a payload whose first non-whitespace byte
is not the open bracket is never treated as array-wrapped, but a payload
with leading whitespace before the bracket is not treated as array-wrapped
either. -/
theorem c7_amended (raw : List ℕ) :
    (is_initial_book raw = true ↔ (raw.head? = some 91 ∧ windowsAny bookPat raw = true))
    ∧ (firstNonWhitespace raw ≠ some 91 → is_initial_book raw = false) := by
  constructor
  · simp [is_initial_book]
  · intro hne
    cases hb : is_initial_book raw
    · rfl
    · exfalso
      apply hne
      have hhead : raw.head? = some 91 := by
        have := hb
        simp [is_initial_book] at this
        exact this.1
      match raw, hhead with
      | b :: bs, hhead =>
        have hb91 : b = 91 := by simpa using hhead
        subst hb91
        simp [firstNonWhitespace]

/-- Witness for the amended claim C7 at the payload consisting of the
single byte of the open-brace character. -/
theorem c7_amended_witness :
    (firstNonWhitespace [123] ≠ some 91) ∧ is_initial_book [123] = false :=
  ⟨by decide, (c7_amended [123]).2 (by decide)⟩

/- Helper lemmas about the map model. -/

theorem mapInsert_mem {α : Type} (k : ℕ) (v : α) (m : List (ℕ × α)) (x : ℕ × α)
    (h : x ∈ mapInsert k v m) : x = (k, v) ∨ x ∈ m := by
  simp only [mapInsert, List.mem_cons] at h
  rcases h with h | h
  · exact Or.inl h
  · exact Or.inr (List.mem_of_mem_filter h)

theorem collectLevels_pos (entries : List LevelEntry)
    (hpos : ∀ e ∈ entries, 0 < e.size) :
    ∀ x ∈ collectLevels entries, 0 < x.2 := by
  suffices h : ∀ (es : List LevelEntry) (m : List (ℕ × ℕ)),
      (∀ e ∈ es, 0 < e.size) → (∀ x ∈ m, 0 < x.2) →
      ∀ x ∈ es.foldl (fun m e => mapInsert e.price e.size m) m, 0 < x.2 by
    exact h entries [] hpos (by simp)
  intro es
  induction es with
  | nil => intro m _ hm x hx; exact hm x hx
  | cons e es ih =>
    intro m hes hm x hx
    refine ih (mapInsert e.price e.size m) (fun c hc => hes c (List.mem_cons_of_mem e hc)) ?_ x hx
    intro y hy
    rcases mapInsert_mem _ _ _ _ hy with rfl | hy2
    · exact hes e (List.mem_cons_self e es)
    · exact hm y hy2

theorem minEntry?_mem (m : List (ℕ × ℕ)) (x : ℕ × ℕ) (h : minEntry? m = some x) :
    x ∈ m := by
  induction m generalizing x with
  | nil => exact Option.noConfusion h
  | cons e es ih =>
    simp only [minEntry?] at h
    rcases h2 : minEntry? es with _ | f
    · rw [h2] at h
      change some e = some x at h
      injection h with h
      exact h ▸ List.mem_cons_self e es
    · rw [h2] at h
      change some (if e.1 ≤ f.1 then e else f) = some x at h
      injection h with h
      by_cases hle : e.1 ≤ f.1
      · rw [if_pos hle] at h
        exact h ▸ List.mem_cons_self e es
      · rw [if_neg hle] at h
        exact List.mem_cons_of_mem e (h ▸ ih f h2)

theorem maxEntry?_mem (m : List (ℕ × ℕ)) (x : ℕ × ℕ) (h : maxEntry? m = some x) :
    x ∈ m := by
  induction m generalizing x with
  | nil => exact Option.noConfusion h
  | cons e es ih =>
    simp only [maxEntry?] at h
    rcases h2 : maxEntry? es with _ | f
    · rw [h2] at h
      change some e = some x at h
      injection h with h
      exact h ▸ List.mem_cons_self e es
    · rw [h2] at h
      change some (if f.1 ≤ e.1 then e else f) = some x at h
      injection h with h
      by_cases hle : f.1 ≤ e.1
      · rw [if_pos hle] at h
        exact h ▸ List.mem_cons_self e es
      · rw [if_neg hle] at h
        exact List.mem_cons_of_mem e (h ▸ ih f h2)

/- C6: zero-size entries in from_bytes. -/

/-- Claim C6 as stated is false: in a snapshot whose ask list carries the
entry (33, 5) followed by the zero-size entry (33, 0), the zero-size entry
does not remove price 33 from the ask map — the earlier nonzero entry is
retained, because the code filters zero-size entries out before collecting
instead of treating them as removals. -/
theorem c6_counterexample :
    (∃ e ∈ msgC6.asks, e.price = 33 ∧ e.size = 0)
    ∧ (33, 5) ∈ (Orderbook.from_bytes msgC6).asks := by
  constructor
  · exact ⟨⟨33, 0⟩, by decide, rfl, rfl⟩
  · decide

/-- Amended claim C6: zero-size wire entries are filtered out before the
side maps are built, so every quantity stored in bids and asks is strictly
positive and best_bid and best_ask never report a zero size; however a
zero-size entry does not delete an earlier nonzero entry at the same price
in the wire list — it is merely skipped. -/
theorem c6_amended (msg : IncomingOrderBookMessage) :
    (∀ p q, (p, q) ∈ (Orderbook.from_bytes msg).asks → 0 < q)
    ∧ (∀ p q, (p, q) ∈ (Orderbook.from_bytes msg).bids → 0 < q)
    ∧ (∀ p q, (Orderbook.from_bytes msg).best_ask = some (p, q) → 0 < q)
    ∧ (∀ p q, (Orderbook.from_bytes msg).best_bid = some (p, q) → 0 < q) := by
  have hasks : ∀ x ∈ (Orderbook.from_bytes msg).asks, 0 < x.2 := by
    apply collectLevels_pos
    intro e he
    have := List.mem_filter.mp he
    simpa using this.2
  have hbids : ∀ x ∈ (Orderbook.from_bytes msg).bids, 0 < x.2 := by
    apply collectLevels_pos
    intro e he
    have := List.mem_filter.mp he
    simpa using this.2
  refine ⟨fun p q h => hasks (p, q) h, fun p q h => hbids (p, q) h, ?_, ?_⟩
  · intro p q h
    exact hasks (p, q) (minEntry?_mem _ _ h)
  · intro p q h
    exact hbids (p, q) (maxEntry?_mem _ _ h)

/-- Witness for the amended claim C6: in the book built from msgC6 the
level (33, 5) is stored and its quantity is positive. -/
theorem c6_amended_witness :
    ((33, 5) ∈ (Orderbook.from_bytes msgC6).asks) ∧ 0 < 5 :=
  ⟨by decide, (c6_amended msgC6).1 33 5 (by decide)⟩

/- C8: the mid price computation. -/

/-- Claim C8 as stated is false: in the book obC8 both sides are non-empty
with best bid and best ask at price 2^64 - 1, a value representable in u64,
yet mid_price returns 2^63 - 1 rather than the exact floor average
2^64 - 1, because the u64 addition bid + ask wraps mod 2^64. -/
theorem c8_counterexample :
    Orderbook.best_bid obC8 = some (2 ^ 64 - 1, 1)
    ∧ Orderbook.best_ask obC8 = some (2 ^ 64 - 1, 1)
    ∧ (2 ^ 64 - 1 : ℕ) < 2 ^ 64
    ∧ Orderbook.mid_price obC8 = some (2 ^ 63 - 1)
    ∧ (2 ^ 63 - 1 : ℕ) ≠ ((2 ^ 64 - 1) + (2 ^ 64 - 1)) / 2 := by decide

/-- Amended claim C8: when both sides are non-empty, mid_price is the floor
of ((best bid + best ask) mod 2^64) / 2 — which agrees with the exact
integer floor average whenever best bid + best ask is below 2^64 — and
mid_price is absent whenever either side is empty. -/
theorem c8_amended (ob : Orderbook) :
    (∀ b qb a qa, ob.best_bid = some (b, qb) → ob.best_ask = some (a, qa) →
      (ob.mid_price = some ((b + a) % U64 / 2)
        ∧ (b + a < U64 → ob.mid_price = some ((b + a) / 2))))
    ∧ ((ob.best_bid = none ∨ ob.best_ask = none) → ob.mid_price = none) := by
  constructor
  · intro b qb a qa hb ha
    have hmid : ob.mid_price = some ((b + a) % U64 / 2) := by
      simp [Orderbook.mid_price, hb, ha]
    refine ⟨hmid, fun hlt => ?_⟩
    rw [hmid, Nat.mod_eq_of_lt hlt]
  · intro h
    rcases h with h | h
    · simp [Orderbook.mid_price, h]
    · rcases hb : ob.best_bid with _ | p <;> simp [Orderbook.mid_price, h, hb]

/-- Witness for the amended claim C8 at the book of the spec example. -/
theorem c8_amended_witness :
    ((Orderbook.from_bytes msgC9).best_bid = some (33, 10)
      ∧ (Orderbook.from_bytes msgC9).best_ask = some (34, 7)
      ∧ (33 + 34 : ℕ) < U64)
    ∧ (Orderbook.from_bytes msgC9).mid_price = some ((33 + 34) / 2) :=
  ⟨⟨by decide, by decide, by decide⟩,
    ((c8_amended (Orderbook.from_bytes msgC9)).1 33 10 34 7 (by decide) (by decide)).2 (by decide)⟩

/- C9: the spec example book. -/

/-- Claim C9 confirmed: the book built from the snapshot with bids
(33,10),(32,5) and asks (34,7) answers best_bid (33,10), best_ask (34,7),
spread 1 and mid_price 33, and the book built from the empty snapshot
answers none for all four queries. -/
theorem c9_snapshot_queries :
    (Orderbook.from_bytes msgC9).best_bid = some (33, 10)
    ∧ (Orderbook.from_bytes msgC9).best_ask = some (34, 7)
    ∧ (Orderbook.from_bytes msgC9).spread = some 1
    ∧ (Orderbook.from_bytes msgC9).mid_price = some 33
    ∧ (Orderbook.from_bytes msgC9e).best_bid = none
    ∧ (Orderbook.from_bytes msgC9e).best_ask = none
    ∧ (Orderbook.from_bytes msgC9e).spread = none
    ∧ (Orderbook.from_bytes msgC9e).mid_price = none := by decide

/- Helper lemmas about removeKey. -/

theorem removeKey_none_iff {α : Type} (k : ℕ) (m : List (ℕ × α)) :
    removeKey k m = none ↔ k ∉ m.map Prod.fst := by
  induction m with
  | nil => simp [removeKey]
  | cons p ps ih =>
    simp only [removeKey, List.map_cons, List.mem_cons]
    by_cases hp : p.1 = k
    · rw [if_pos hp]
      constructor
      · intro hc; exact Option.noConfusion hc
      · intro hc; exact absurd (Or.inl hp.symm) hc
    · rw [if_neg hp]
      constructor
      · intro hc hk
        rcases hk with hk | hk
        · exact hp hk.symm
        · rcases ho : removeKey k ps with _ | r
          · exact (ih.mp ho) hk
          · rw [ho] at hc; exact Option.noConfusion hc
      · intro hc
        have hk : k ∉ ps.map Prod.fst := fun hm => hc (Or.inr hm)
        rw [ih.mpr hk]
        rfl

theorem removeKey_some {α : Type} (k : ℕ) (v : α) (m m2 : List (ℕ × α))
    (h : removeKey k m = some (v, m2)) :
    (k, v) ∈ m ∧ (m2.map Prod.fst).Sublist (m.map Prod.fst) ∧ m2.length < m.length ∧
      ((m.map Prod.fst).Nodup →
        ∀ j, j ∈ m2.map Prod.fst ↔ (j ∈ m.map Prod.fst ∧ j ≠ k)) := by
  induction m generalizing v m2 with
  | nil => exact Option.noConfusion h
  | cons p ps ih =>
    simp only [removeKey] at h
    by_cases hp : p.1 = k
    · rw [if_pos hp] at h
      injection h with h
      injection h with hv hm2
      subst hm2
      refine ⟨?_, List.sublist_cons_self p.1 (ps.map Prod.fst), ?_, ?_⟩
      · exact List.mem_cons.mpr (Or.inl (Prod.ext hp hv).symm)
      · simp only [List.length_cons]
        omega
      · intro hnd j
        subst hp
        simp only [List.map_cons, List.nodup_cons] at hnd
        simp only [List.map_cons, List.mem_cons]
        constructor
        · intro hj
          refine ⟨Or.inr hj, ?_⟩
          intro he
          exact hnd.1 (he ▸ hj)
        · rintro ⟨hj | hj, hne⟩
          · exact absurd hj hne
          · exact hj
    · rw [if_neg hp] at h
      rcases hr : removeKey k ps with _ | r
      · rw [hr] at h
        exact Option.noConfusion h
      · rw [hr] at h
        obtain ⟨w, ps2⟩ := r
        change some (w, p :: ps2) = some (v, m2) at h
        injection h with h
        injection h with hv hm2
        subst hv
        subst hm2
        obtain ⟨ih1, ih2, ih3, ih4⟩ := ih w ps2 hr
        refine ⟨List.mem_cons_of_mem p ih1, ?_, ?_, ?_⟩
        · simpa using ih2.cons₂ p.1
        · simp only [List.length_cons]
          omega
        · intro hnd j
          simp only [List.map_cons, List.nodup_cons] at hnd
          simp only [List.map_cons, List.mem_cons]
          rw [ih4 hnd.2 j]
          constructor
          · rintro (hj | ⟨hj, hne⟩)
            · refine ⟨Or.inl hj, ?_⟩
              intro he
              exact hp (by rw [← hj, he])
            · exact ⟨Or.inr hj, hne⟩
          · rintro ⟨hj | hj, hne⟩
            · exact Or.inl hj
            · exact Or.inr ⟨hj, hne⟩

/- The drain loop specification. -/

theorem drainFuel_spec {α : Type} :
    ∀ (fuel : ℕ) (m : List (ℕ × α)) (next : ℕ),
      m.length ≤ fuel → (m.map Prod.fst).Nodup →
      next ≤ (drainFuel fuel m next).2.1
      ∧ (drainFuel fuel m next).2.2.map Prod.fst =
          List.range' next ((drainFuel fuel m next).2.1 - next)
      ∧ (∀ j, j ∈ (drainFuel fuel m next).1.map Prod.fst ↔
          (j ∈ m.map Prod.fst ∧ ¬(next ≤ j ∧ j < (drainFuel fuel m next).2.1)))
      ∧ (drainFuel fuel m next).2.1 ∉ m.map Prod.fst
      ∧ (∀ j, next ≤ j → j < (drainFuel fuel m next).2.1 → j ∈ m.map Prod.fst)
      ∧ ((drainFuel fuel m next).1.map Prod.fst).Nodup := by
  intro fuel
  induction fuel with
  | zero =>
    intro m next hlen hnd
    have hm : m = [] := List.eq_nil_of_length_eq_zero (Nat.le_zero.mp hlen)
    subst hm
    simp [drainFuel]
  | succ fuel ih =>
    intro m next hlen hnd
    rcases hrk : removeKey next m with _ | ⟨v, m2⟩
    · simp only [drainFuel, hrk]
      refine ⟨le_refl _, by simp, ?_, ?_, ?_, hnd⟩
      · intro j
        constructor
        · intro hj; exact ⟨hj, by omega⟩
        · intro hj; exact hj.1
      · exact (removeKey_none_iff next m).mp hrk
      · intro j h1 h2; omega
    · obtain ⟨hmem, hsub, hlt, hmemiff⟩ := removeKey_some next v m m2 hrk
      have hnd2 : (m2.map Prod.fst).Nodup := hsub.nodup hnd
      have hk : next ∈ m.map Prod.fst := List.mem_map.mpr ⟨(next, v), hmem, rfl⟩
      have hmm := hmemiff hnd
      obtain ⟨ih1, ih2, ih3, ih4, ih5, ih6⟩ := ih m2 (next + 1) (by omega) hnd2
      simp only [drainFuel, hrk]
      refine ⟨by omega, ?_, ?_, ?_, ?_, ih6⟩
      · simp only [List.map_cons, ih2]
        have heq : (drainFuel fuel m2 (next + 1)).2.1 - next =
            ((drainFuel fuel m2 (next + 1)).2.1 - (next + 1)) + 1 := by omega
        rw [heq]
        simp [List.range']
      · intro j
        rw [ih3 j, hmm j]
        constructor
        · rintro ⟨⟨hj, hne⟩, hni⟩
          exact ⟨hj, by omega⟩
        · rintro ⟨hj, hni⟩
          have hne : j ≠ next := by
            intro he
            exact hni (by omega)
          exact ⟨⟨hj, hne⟩, by omega⟩
      · intro hc
        have hne : (drainFuel fuel m2 (next + 1)).2.1 ≠ next := by omega
        exact ih4 ((hmm _).mpr ⟨hc, hne⟩)
      · intro j h1 h2
        rcases Nat.eq_or_lt_of_le h1 with rfl | hlt2
        · exact hk
        · exact ((hmm j).mp (ih5 j (by omega) h2)).1

/- Helper lemmas about mapInsert keys. -/

theorem mapInsert_keys_mem {α : Type} (k : ℕ) (v : α) (m : List (ℕ × α)) (j : ℕ) :
    j ∈ (mapInsert k v m).map Prod.fst ↔ (j = k ∨ (j ∈ m.map Prod.fst ∧ j ≠ k)) := by
  simp only [mapInsert, List.map_cons, List.mem_cons, List.mem_map, List.mem_filter,
    decide_eq_true_eq]
  constructor
  · rintro (rfl | ⟨x, ⟨hx, hxk⟩, rfl⟩)
    · exact Or.inl rfl
    · exact Or.inr ⟨⟨x, hx, rfl⟩, hxk⟩
  · rintro (rfl | ⟨⟨x, hx, rfl⟩, hne⟩)
    · exact Or.inl rfl
    · exact Or.inr ⟨x, ⟨hx, hne⟩, rfl⟩

theorem mapInsert_keys_nodup {α : Type} (k : ℕ) (v : α) (m : List (ℕ × α))
    (h : (m.map Prod.fst).Nodup) : ((mapInsert k v m).map Prod.fst).Nodup := by
  simp only [mapInsert, List.map_cons, List.nodup_cons]
  constructor
  · intro hc
    rw [List.mem_map] at hc
    obtain ⟨x, hx, hxk⟩ := hc
    have := (List.mem_filter.mp hx).2
    rw [decide_eq_true_eq] at this
    exact this hxk
  · exact ((List.filter_sublist m).map Prod.fst).nodup h

/- The per-step and whole-run invariants of the reordering stage. -/

theorem range_append_range' : ∀ (d n : ℕ), List.range n ++ List.range' n d = List.range (n + d) := by
  intro d
  induction d with
  | zero => intro n; simp
  | succ d ih =>
    intro n
    have h1 : List.range' n (d + 1) = n :: List.range' (n + 1) d := by simp [List.range']
    rw [h1]
    calc List.range n ++ n :: List.range' (n + 1) d
        = (List.range n ++ [n]) ++ List.range' (n + 1) d := by simp
      _ = List.range (n + 1) ++ List.range' (n + 1) d := by rw [List.range_succ]
      _ = List.range (n + 1 + d) := ih (n + 1)
      _ = List.range (n + (d + 1)) := by rw [Nat.add_assoc, Nat.add_comm 1 d]

theorem inv_step {α : Type} (S : List ℕ) (s : RState α) (a : ParsedMessage α)
    (hinv : Inv S s) (ha : a.seq_no ∉ S) : Inv (S ++ [a.seq_no]) (step s a) := by
  obtain ⟨hnd, hem, hbuf, hlow, hnx⟩ := hinv
  have hanb : a.seq_no ∉ s.buffer.map Prod.fst := fun hc => ha ((hbuf _).mp hc).1
  have hknd : ((mapInsert a.seq_no a.payload s.buffer).map Prod.fst).Nodup :=
    mapInsert_keys_nodup _ _ _ hnd
  have hkm : ∀ j, j ∈ (mapInsert a.seq_no a.payload s.buffer).map Prod.fst ↔
      (j = a.seq_no ∨ j ∈ s.buffer.map Prod.fst) := by
    intro j
    rw [mapInsert_keys_mem]
    constructor
    · rintro (rfl | ⟨h1, _⟩)
      · exact Or.inl rfl
      · exact Or.inr h1
    · rintro (rfl | h1)
      · exact Or.inl rfl
      · exact Or.inr ⟨h1, fun e => hanb (e ▸ h1)⟩
  have hge : s.next_seq ≤ a.seq_no := by
    by_contra hlt
    push_neg at hlt
    exact ha (hlow _ hlt)
  obtain ⟨d1, d2, d3, d4, d5, d6⟩ :=
    drainFuel_spec (mapInsert a.seq_no a.payload s.buffer).length
      (mapInsert a.seq_no a.payload s.buffer) s.next_seq (le_refl _) hknd
  simp only [step, drain]
  refine ⟨d6, ?_, ?_, ?_, ?_⟩
  · simp only [List.map_append, hem, d2]
    rw [range_append_range']
    congr 1
    omega
  · intro k
    rw [d3 k, hkm k]
    simp only [List.mem_append, List.mem_singleton]
    constructor
    · rintro ⟨rfl | hk, hni⟩
      · exact ⟨Or.inr rfl, by omega⟩
      · obtain ⟨hkS, hkge⟩ := (hbuf k).mp hk
        exact ⟨Or.inl hkS, by omega⟩
    · rintro ⟨hkS | rfl, hge2⟩
      · have hk : k ∈ s.buffer.map Prod.fst := (hbuf k).mpr ⟨hkS, by omega⟩
        exact ⟨Or.inr hk, by omega⟩
      · exact ⟨Or.inl rfl, by omega⟩
  · intro k hk
    simp only [List.mem_append, List.mem_singleton]
    by_cases hkn : k < s.next_seq
    · exact Or.inl (hlow k hkn)
    · push_neg at hkn
      have hkM := d5 k hkn hk
      rcases (hkm k).mp hkM with rfl | hkb
      · exact Or.inr rfl
      · exact Or.inl ((hbuf k).mp hkb).1
  · intro hc
    simp only [List.mem_append, List.mem_singleton] at hc
    have hnM :
        (drainFuel (mapInsert a.seq_no a.payload s.buffer).length
          (mapInsert a.seq_no a.payload s.buffer) s.next_seq).2.1
        ∉ (mapInsert a.seq_no a.payload s.buffer).map Prod.fst := d4
    apply hnM
    rw [hkm]
    rcases hc with hc | hc
    · right
      exact (hbuf _).mpr ⟨hc, d1⟩
    · exact Or.inl hc

theorem inv_init {α : Type} : Inv ([] : List ℕ) (⟨[], 0, []⟩ : RState α) := by
  refine ⟨by simp, by simp, ?_, ?_, by simp⟩
  · intro k; simp
  · intro k hk; simp at hk

theorem inv_run {α : Type} :
    ∀ (msgs : List (ParsedMessage α)) (S : List ℕ) (s : RState α),
      Inv S s → (S ++ msgs.map ParsedMessage.seq_no).Nodup →
      Inv (S ++ msgs.map ParsedMessage.seq_no) (msgs.foldl step s) := by
  intro msgs
  induction msgs with
  | nil =>
    intro S s h _
    simpa using h
  | cons a t ih =>
    intro S s h hnd
    have hnotin : a.seq_no ∉ S := by
      rw [List.nodup_append] at hnd
      intro hc
      exact hnd.2.2 hc (by simp)
    have h2 := inv_step S s a h hnotin
    have hnd2 : ((S ++ [a.seq_no]) ++ t.map ParsedMessage.seq_no).Nodup := by
      simpa [List.append_assoc] using hnd
    have h3 := ih (S ++ [a.seq_no]) (step s a) h2 hnd2
    simpa [List.append_assoc] using h3

/- C1: correctness of the reordering stage for complete permutations. -/

/-- Claim C1 confirmed: when the parse completions delivered to the
reordering stage carry exactly the sequence numbers 0..n, each once, in any
permuted order, the stage emits exactly the sequence numbers 0, 1, ..., n in
increasing order (so none twice), and after every prefix of the delivery
sequence every key still buffered is at least next_seq (no already-emitted
sequence number is retained). -/
theorem c1_resequencing {α : Type} (n : ℕ) (msgs : List (ParsedMessage α))
    (hperm : (msgs.map ParsedMessage.seq_no).Perm (List.range (n + 1))) :
    ((orderbook_handling msgs).emitted.map Prod.fst = List.range (n + 1))
    ∧ ((orderbook_handling msgs).emitted.map Prod.fst).Nodup
    ∧ (∀ p q : List (ParsedMessage α), msgs = p ++ q →
        ∀ k ∈ (orderbook_handling p).buffer.map Prod.fst,
          (orderbook_handling p).next_seq ≤ k) := by
  have hndall : (msgs.map ParsedMessage.seq_no).Nodup :=
    (hperm.nodup_iff).mpr (List.nodup_range _)
  have hpref : ∀ p q : List (ParsedMessage α), msgs = p ++ q →
      Inv (p.map ParsedMessage.seq_no) (orderbook_handling p) := by
    intro p q hq
    have hndp : (p.map ParsedMessage.seq_no).Nodup := by
      have hsub : (p.map ParsedMessage.seq_no).Sublist (msgs.map ParsedMessage.seq_no) := by
        rw [hq, List.map_append]
        exact List.sublist_append_left _ _
      exact hsub.nodup hndall
    have h := inv_run p [] ⟨[], 0, []⟩ inv_init (by simpa using hndp)
    simpa using h
  have hfin := hpref msgs [] (by simp)
  obtain ⟨hbnd, hem, hbuf, hlow, hnxf⟩ := hfin
  have hmemS : ∀ k, k ∈ msgs.map ParsedMessage.seq_no ↔ k < n + 1 := by
    intro k
    rw [hperm.mem_iff, List.mem_range]
  have hnsf : (orderbook_handling msgs).next_seq = n + 1 := by
    have h1 : ¬ ((orderbook_handling msgs).next_seq < n + 1) := by
      intro hc
      exact hnxf ((hmemS _).mpr hc)
    have h2 : ¬ (n + 1 < (orderbook_handling msgs).next_seq) := by
      intro hc
      have := (hmemS (n + 1)).mp (hlow (n + 1) hc)
      omega
    omega
  refine ⟨?_, ?_, ?_⟩
  · rw [hem, hnsf]
  · rw [hem]
    exact List.nodup_range _
  · intro p q hpq k hk
    obtain ⟨_, _, hbufp, _, _⟩ := hpref p q hpq
    exact ((hbufp k).mp hk).2

/-- Witness for claim C1: completions for sequence numbers 2, 0, 3, 1
arrive in that order and the stage emits 0, 1, 2, 3. -/
theorem c1_resequencing_witness :
    ((msgsC1.map ParsedMessage.seq_no).Perm (List.range (3 + 1)))
    ∧ (orderbook_handling msgsC1).emitted.map Prod.fst = List.range (3 + 1) :=
  ⟨by decide, (c1_resequencing 3 msgsC1 (by decide)).1⟩

/- C2: a permanently skipped sequence number stalls the stage. -/

/-- Claim C2 describes required behavior the code does not implement: when
the parse of sequence number 2 fails (its worker sends nothing) and 0, 1, 3
are delivered, the reordering stage emits only 0 and 1, next_seq stalls at
2, and 3 is parked in the buffer forever — it is never emitted, contrary to
the claim that emission proceeds past the skipped number. -/
theorem c2_skip_stalls :
    (orderbook_handling (deliveredOf framesC2)).emitted.map Prod.fst = [0, 1]
    ∧ (orderbook_handling (deliveredOf framesC2)).next_seq = 2
    ∧ (orderbook_handling (deliveredOf framesC2)).buffer.map Prod.fst = [3]
    ∧ (3 : ℕ) ∉ (orderbook_handling (deliveredOf framesC2)).emitted.map Prod.fst := by decide

end Beans
